import Mathlib

/-!
Verification development for the `ungive/update` self-update engine.

The definitions in this file are shallow embeddings of the C++ sources:

* `version_number::from_string`, `operator<`, `operator==`, `string()`
  from `include/ungive/update/detail/common.h`;
* the sentinel file codec from `internal/sentinel.h`;
* `parse_sha256sums` from `include/ungive/update/internal/crypto.h`;
* `filename_contains_version_pattern` and `regex_contains`
  (modelled as an explicit search semantics of the constructed regex)
  from `updater.hpp` and `internal/util.h`;
* `manager::latest_available_update`, `manager::apply_latest`,
  `manager::prune`, `manager::unlink` from `manager.hpp`,
  over an explicit directory-tree state;
* `updater::extract_archive` from `updater.hpp`;
* `http_downloader::get` from `include/ungive/update/detail/downloader.h`,
  with the network modelled as an oracle parameter.

Strings are modelled as `List Char`; C++ `int` components of version
numbers are modelled as `Int` (overflow does not matter for any of the
inputs considered here).
-/

set_option autoImplicit false

namespace Update

/-- ASCII digit test, mirroring the C++ comparisons with '0' and '9'. -/
def isDig (c : Char) : Bool :=
  48 ≤ c.toNat && c.toNat ≤ 57

/-- Numeric value of an ASCII digit (c - '0' in the C++ source). -/
def dval (c : Char) : Int :=
  Int.ofNat c.toNat - 48

/-- Substring test: does pat occur at the head of s (std::string compare). -/
def isPrefOf : List Char → List Char → Bool
  | [], _ => true
  | _ :: _, [] => false
  | a :: as, b :: bs => a = b && isPrefOf as bs

/-- Substring containment: models std::string::find(pat, 0) != npos.
An empty pattern is always found (find returns 0). -/
def containsSubstr : List Char → List Char → Bool
  | [], pat => isPrefOf pat []
  | c :: rest, pat => isPrefOf pat (c :: rest) || containsSubstr rest pat

/-- The component-parsing loop of `version_number::from_string`:
the remainder of the version string (after the prefix length) is scanned
left to right; '.' finishes the current component (which starts again at
zero: an empty piece yields component 0, exactly as in the C++ loop where
`n` starts at 0 and the inner loop body never runs), a digit is folded
into the current component, and any other character throws. -/
def parseRun : List Char → Int → Except Unit (List Int)
  | [], n => .ok [n]
  | c :: cs, n =>
    if c = '.' then (parseRun cs 0).map (fun ns => n :: ns)
    else if isDig c then parseRun cs (n * 10 + dval c)
    else .error ()

/-- `version_number::from_string(version, pre)`: the C++ code first checks
`version.find(pre, 0) != npos` (the prefix may occur at any position),
then parses starting at index `pre.size()` regardless of where the
occurrence was. -/
def from_string (version pre : List Char) : Except Unit (List Int) :=
  if containsSubstr version pre then parseRun (version.drop pre.length) 0
  else .error ()

/-- Tail comparison of `operator<` when the right version is longer:
the right remainder decides (a positive component makes the left smaller,
a negative one makes it larger, zeros are skipped). -/
def vltRight : List Int → Bool
  | [] => false
  | x :: xs => if x < 0 then false else if 0 < x then true else vltRight xs

/-- Tail comparison of `operator<` when the left version is longer. -/
def vltLeft : List Int → Bool
  | [] => false
  | x :: xs => if x < 0 then true else if 0 < x then false else vltLeft xs

/-- `version_number::operator<`: lexicographic over the common length;
the longer version's remainder is then compared against virtual zeros. -/
def vlt : List Int → List Int → Bool
  | [], [] => false
  | [], b :: bs => vltRight (b :: bs)
  | a :: as, [] => vltLeft (a :: as)
  | a :: as, b :: bs =>
    if a < b then true else if b < a then false else vlt as bs

/-- `version_number::operator==`, derived from `operator<` in the source. -/
def veq (a b : List Int) : Bool :=
  !vlt a b && !vlt b a

/-- `version_number::operator!=`. -/
def vne (a b : List Int) : Bool :=
  !veq a b

/-- Decimal digit character, used to render version components. -/
def decDigit (n : Nat) : Char :=
  match n with
  | 0 => '0' | 1 => '1' | 2 => '2' | 3 => '3' | 4 => '4'
  | 5 => '5' | 6 => '6' | 7 => '7' | 8 => '8' | _ => '9'

/-- Fuel-driven decimal rendering; the fuel is structural so that the
definition reduces inside the kernel.  `natToDec` always supplies enough
fuel. -/
def natToDecAux : Nat → Nat → List Char
  | 0, _ => []
  | fuel + 1, n =>
    if n < 10 then [decDigit n]
    else natToDecAux fuel (n / 10) ++ [decDigit (n % 10)]

/-- Decimal rendering of a natural number (most significant digit first),
as produced by `operator<<` on a non-negative int. -/
def natToDec (n : Nat) : List Char :=
  natToDecAux (n + 1) n

/-- Rendering of one version component (`oss << component`). -/
def intToDec (n : Int) : List Char :=
  if n < 0 then '-' :: natToDec n.natAbs else natToDec n.natAbs

/-- `version_number::string()`: components joined with ".". -/
def vstring : List Int → List Char
  | [] => []
  | [x] => intToDec x
  | x :: y :: rest => intToDec x ++ '.' :: vstring (y :: rest)

/-! ## Sentinel file codec (internal/sentinel.h) -/

/-- The lines produced by repeated `std::getline` on a string stream:
segments separated by a line feed; a trailing line feed does not open a
final empty line, and an empty input yields no lines at all. -/
def getLines : List Char → List (List Char)
  | [] => []
  | c :: cs =>
    if c = '\n' then [] :: getLines cs
    else
      match getLines cs with
      | [] => [[c]]
      | l :: ls => (c :: l) :: ls

/-- Index of the first occurrence of a character (find_first_of). -/
def findCh (c : Char) : List Char → Option Nat
  | [] => none
  | d :: ds => if d = c then some 0 else (findCh c ds).map (· + 1)

/-- The line loop of `sentinel::decode`: each line is split at its first
'='; lines without '=' and unknown keys are skipped; a "version" key has
its value (everything after the '=', including a carriage return left
behind by `std::getline` on CRLF input) parsed with
`version_number::from_string`, a failure of which aborts the whole
decode; a later "version" line overwrites an earlier one. -/
def decodeLoop : List (List Char) → Option (List Int) →
    Except Unit (Option (List Int))
  | [], acc => .ok acc
  | l :: ls, acc =>
    match findCh '=' l with
    | none => decodeLoop ls acc
    | some i =>
      if l.take i = ("version").data then
        match from_string (l.drop (i + 1)) [] with
        | .error _ => .error ()
        | .ok v => decodeLoop ls (some v)
      else decodeLoop ls acc

/-- `sentinel::decode` as observed through `sentinel::read`:
`none` both when decoding throws and when no version field is present. -/
def decodeSentinel (content : List Char) : Option (List Int) :=
  match decodeLoop (getLines content) none with
  | .error _ => none
  | .ok none => none
  | .ok (some v) => some v

/-! ## parse_sha256sums (internal/crypto.h) -/

/-- The character-at-a-time state machine of `parse_sha256sums`:
state 0 collects the hash until a space, state 1 waits for '*', state 2
collects the path, and only a line terminator seen in state 2 emits the
accumulated entry.  '/' in the path is replaced by the native separator
`sep`.  Note that reaching the end of the input in state 2 emits
nothing. -/
def shaLoop (sep : Char) :
    List Char → Nat → List Char → List Char → List (List Char × List Char)
  | [], _, _, _ => []
  | c :: rest, st, h, p =>
    if (c = '\r' || c = '\n') && st ≠ 2 then shaLoop sep rest 0 h p
    else if st = 0 then
      (if c = ' ' then shaLoop sep rest 1 h p
       else shaLoop sep rest 0 (h ++ [c]) p)
    else if st = 1 then
      (if c = '*' then shaLoop sep rest 2 h p else shaLoop sep rest 1 h p)
    else
      if c = '\r' || c = '\n' then (h, p) :: shaLoop sep rest 0 [] []
      else shaLoop sep rest 2 h (p ++ [if c = '/' then sep else c])

/-- `internal::crypto::parse_sha256sums`, with the platform path
separator passed explicitly. -/
def parse_sha256sums (sep : Char) (data : List Char) :
    List (List Char × List Char) :=
  shaLoop sep data 0 [] []

/-! ## The version-in-filename check (updater.hpp / internal/util.h)

`filename_contains_version_pattern(V)` builds the std::regex

  (^|^[^0-9]|[^0-9]\.|[^.0-9]) V ([^.0-9]|\.[^0-9]|[^0-9]$|$)

and `regex_contains` asks whether it matches anywhere in the filename
(`std::sregex_iterator` ≠ end).  The version string `V` is inserted
verbatim, so its '.' characters are regex wildcards.  We model the
search semantics of this particular pattern explicitly: a match exists
iff at some position j the left context admits one of the four left
alternatives, `V` (with '.' as a wildcard) matches at j, and the right
context admits one of the four right alternatives.  The filenames
considered contain no line terminators, so the ECMAScript restriction
on '.' is irrelevant. -/

/-- Does the version pattern (digits literal, '.' wildcard) match at the
head of the remaining input? -/
def patMatch : List Char → List Char → Bool
  | [], _ => true
  | _ :: _, [] => false
  | p :: ps, c :: cs => (p = '.' || p = c) && patMatch ps cs

/-- Can the left alternation `(^|^[^0-9]|[^0-9]\.|[^.0-9])` consume
exactly the characters before the match position?  `before` is the part
of the subject to the left of the version occurrence.
- `[]`: the `^` alternative;
- one char: the `^[^0-9]` alternative (anchored, so the char is at the
  string start);
- two or more: either the last char matches `[^.0-9]`, or the last two
  chars match `[^0-9]\.`. -/
def leftOk (before : List Char) : Bool :=
  match before.reverse with
  | [] => true
  | [y] => !isDig y
  | y :: x :: _ => (!isDig y && y ≠ '.') || (y = '.' && !isDig x)

/-- Can the right alternation `([^.0-9]|\.[^0-9]|[^0-9]$|$)` consume a
prefix of the characters after the version occurrence, with anchors
honoured?  `after` is the part of the subject to the right. -/
def rightOk (after : List Char) : Bool :=
  match after with
  | [] => true
  | [y] => !isDig y
  | y :: x :: _ => (!isDig y && y ≠ '.') || (y = '.' && !isDig x)

/-- `regex_contains(s, filename_contains_version_pattern(V))`:
search for a match position anywhere in the subject. -/
def regexContainsVersion (V s : List Char) : Bool :=
  (List.range (s.length + 1)).any fun j =>
    leftOk (s.take j) && patMatch V (s.drop j) &&
      rightOk (s.drop (j + V.length))

/-! ## Directory model

The working directory is a list of named children in enumeration order.
A child is either a plain file or a directory; directory contents are a
flat association list from (relative) path to file content, which is all
the manager code observes (sentinel files, retained files). -/

/-- A filesystem node: a file with content, or a directory with a flat
list of contained files keyed by relative path. -/
inductive FsNode where
  | file (content : List Char)
  | dir (entries : List (List Char × List Char))
deriving DecidableEq, Repr

/-- Contents of a working directory: named children in the order the
directory iterator yields them. -/
abbrev WDir := List (List Char × FsNode)

/-- First-match association lookup (a path exists at most once in a real
directory). -/
def lookupEntry (k : List Char) : List (List Char × List Char) → Option (List Char)
  | [] => none
  | e :: es => if e.1 = k then some e.2 else lookupEntry k es

/-- Remove a path from a directory (std::filesystem::remove_all). -/
def eraseEntry (k : List Char) (d : List (List Char × List Char)) :
    List (List Char × List Char) :=
  d.filter fun e => e.1 ≠ k

/-- Create or overwrite a file inside a directory (write_file). -/
def setEntry (k v : List Char) (d : List (List Char × List Char)) :
    List (List Char × List Char) :=
  if (lookupEntry k d).isSome then d.map (fun e => if e.1 = k then (k, v) else e)
  else d ++ [(k, v)]

/-- First-match lookup of a working-directory child. -/
def lookupChild (n : List Char) : WDir → Option FsNode
  | [] => none
  | e :: es => if e.1 = n then some e.2 else lookupChild n es

/-- Remove a child of the working directory (remove_all). -/
def eraseChild (n : List Char) (wd : WDir) : WDir :=
  wd.filter fun e => e.1 ≠ n

/-- The sentinel filename constant. -/
def sentinelName : List Char := (".sentinel").data

/-- `internal::sentinel(dir).read()` followed by `version()`: the
sentinel file must exist in the directory and decode to a version; a
plain file in place of the directory has no sentinel. -/
def sentinelDirVer : FsNode → Option (List Int)
  | .file _ => none
  | .dir d =>
    match lookupEntry sentinelName d with
    | none => none
    | some content => decodeSentinel content

/-- One candidate test of the `latest_available_update` scan: the child
must be a directory with a filename, the name must parse as a version
(with empty prefix), the sentinel must read successfully, and the
sentinel version must equal (`operator==`) the parsed directory name.
The candidate's reported version is the parsed directory name. -/
def candVer (n : List Char) (node : FsNode) : Option (List Int) :=
  match node with
  | .file _ => none
  | .dir _ =>
    if n = [] then none
    else
      match from_string n [] with
      | .error _ => none
      | .ok dv =>
        match sentinelDirVer node with
        | none => none
        | some sv => if vne dv sv then none else some dv

/-- The loop of `manager::latest_available_update`: fold the children in
enumeration order; a candidate equal (`operator==`) to the current best
aborts the whole scan with `nullopt` (inconsistent layout); a strictly
greater candidate replaces the best. -/
def scanLoop : WDir → Option (List Int × List Char) → Option (List Int × List Char)
  | [], acc => acc
  | (n, node) :: rest, acc =>
    match candVer n node with
    | none => scanLoop rest acc
    | some v =>
      match acc with
      | none => scanLoop rest (some (v, n))
      | some (rv, rp) =>
        if veq v rv then none
        else if vlt rv v then scanLoop rest (some (v, n))
        else scanLoop rest (some (rv, rp))

/-- `manager::latest_available_update` on an existing working directory
(the lock-acquisition and directory-creation side effects are modelled
separately on `DiskState`). -/
def latestAvailableUpdate (wd : WDir) : Option (List Int × List Char) :=
  scanLoop wd none

/-- The candidates of a scan, in enumeration order, with their names. -/
def candList (wd : WDir) : List (List Int × List Char) :=
  wd.filterMap fun e => (candVer e.1 e.2).map fun v => (v, e.1)

/-- Modelled from the spec: the enumeration contract of C3 — among the
valid candidates, return the greatest (a later candidate replaces the
best only when strictly greater), or absent when there are none. -/
def specGreatest (l : List (List Int × List Char)) : Option (List Int × List Char) :=
  l.foldl (fun acc c =>
    match acc with
    | none => some c
    | some r => if vlt r.1 c.1 then some c else some r) none

/-- The manager's configuration: the distinguished current-directory
name, the compiled-in current version, and the retained relative
paths. -/
structure Manager where
  latestDir : List Char
  currentVersion : List Int
  retain : List (List Char)

/-- `manager::move_retained_files(from, to)`: each retained path present
in the source and absent in the target is moved across; a path already
present in the target wins and the retained copy is left to be deleted
with the source directory. -/
def moveRetained : List (List Char) →
    List (List Char × List Char) → List (List Char × List Char) →
    List (List Char × List Char) × List (List Char × List Char)
  | [], src, dst => (src, dst)
  | pth :: rest, src, dst =>
    match lookupEntry pth src with
    | none => moveRetained rest src dst
    | some content =>
      match lookupEntry pth dst with
      | some _ => moveRetained rest src dst
      | none => moveRetained rest (eraseEntry pth src) (dst ++ [(pth, content)])

/-- `manager::apply_latest`, as a transformer of the working-directory
state.  Process killing is an external effect with no bearing on the
directory tree and is not modelled.  The `sentinel` constructor's
creation of a missing latest directory is omitted: when the latest
directory is missing the code creates it empty and removes it again
before the commit rename, which is observationally the same.  In the
pathological state where a plain *file* occupies the latest path, the
constructor's `create_directories` would throw in the C++ code; the
model instead treats that child as carrying no sentinel and lets the
apply proceed, which only widens the set of states the theorems cover. -/
def applyLatest (m : Manager) (wd : WDir) : Option (List Int) × WDir :=
  let latestEnt := lookupChild m.latestDir wd
  let latestVer := latestEnt.bind sentinelDirVer
  match latestAvailableUpdate wd with
  | none => (none, wd)
  | some (v, p) =>
    if latestVer.isNone || vlt (latestVer.getD []) v then
      let updNode := (lookupChild p wd).getD (.dir [])
      let step :=
        match latestEnt with
        | some (.file _) => (updNode, eraseChild m.latestDir wd)
        | some (.dir latD) =>
          match updNode with
          | .dir updD =>
            (FsNode.dir (moveRetained m.retain latD updD).2,
              eraseChild m.latestDir wd)
          | .file c => (FsNode.file c, eraseChild m.latestDir wd)
        | none => (updNode, wd)
      let renamed := step.2.map fun e => if e.1 = p then (m.latestDir, step.1) else e
      (some v, eraseChild p renamed)
    else (none, wd)

/-! ## updater::extract_archive (updater.hpp) -/

/-- A content or post-update operation: a transformation of the
directory contents that can fail with a message.  The C++ operations may
in principle mutate before throwing; the operations modelled here are
atomic. -/
abbrev DirOp := List (List Char × List Char) → Except (List Char) (List (List Char × List Char))

/-- Run a list of operations in order; the first failure stops the run
and also reports the directory contents as of the last success, which is
what remains on disk. -/
def runOps2 (ops : List DirOp) (d : List (List Char × List Char)) :
    Option (List Char) × List (List Char × List Char) :=
  match ops with
  | [] => (none, d)
  | op :: rest =>
    match op d with
    | .error e => (some e, d)
    | .ok d2 => runOps2 rest d2

/-- `updater::extract_archive` for a zip archive, over the directory
model: clear any pre-existing output directory, extract into a private
scratch directory (`archive` stands for the extraction result), run the
content operations on the scratch directory, rename it into the working
directory, run the post-update operations on the committed directory,
then write the sentinel.  The result carries the thrown error message or
the committed child name, together with the final working-directory
state (the scratch directory lives outside the working directory and is
removed by the deferred cleanup in every outcome). -/
def extract_archive (contentOps postOps : List DirOp)
    (version : List Int) (archive : List (List Char × List Char)) (wd : WDir) :
    Except (List Char) (List Char) × WDir :=
  let outName := vstring version
  let wd1 := eraseChild outName wd
  match runOps2 contentOps archive with
  | (some e, _) => (.error (("content operation failed: ").data ++ e), wd1)
  | (none, temp2) =>
    match runOps2 postOps temp2 with
    | (some e, d3) =>
      (.error (("post-update operation failed: ").data ++ e),
        wd1 ++ [(outName, FsNode.dir d3)])
    | (none, d3) =>
      let d4 := setEntry sentinelName (("version=").data ++ vstring version) d3
      (.ok outName, wd1 ++ [(outName, FsNode.dir d4)])

/-! ## Disk-level effects of the manager's query operations

`latest_available_update`, `prune` and `unlink` all begin with
`acquire_lock()` (whose `lock_file` constructor runs
`create_directories` on the working directory and creates the lock
file) and then run `create_directories` again before iterating.  The
existence of the working directory is therefore part of the state. -/

/-- The lock filename constant. -/
def lockName : List Char := ("update.lock").data

/-- On-disk state of the working directory (`none` when the directory
does not exist) together with whether this manager holds the lock. -/
structure DiskState where
  wd : Option WDir
  hasLock : Bool
deriving DecidableEq, Repr

/-- `manager::acquire_lock`: a no-op when the lock is held; otherwise
the `lock_file` constructor creates the working directory and opens
(creating if needed) the lock file inside it. -/
def acquireLock (s : DiskState) : DiskState :=
  if s.hasLock then s
  else
    let ch := s.wd.getD []
    let ch2 :=
      if (lookupChild lockName ch).isSome then ch
      else ch ++ [(lockName, FsNode.file [])]
    ⟨some ch2, true⟩

/-- `manager::latest_available_update` with its disk effects:
acquire the lock, `create_directories` on the working directory, then
scan the children. -/
def diskLatest (s : DiskState) : Option (List Int × List Char) × DiskState :=
  let s1 := acquireLock s
  let s2 : DiskState := ⟨some (s1.wd.getD []), s1.hasLock⟩
  (latestAvailableUpdate (s2.wd.getD []), s2)

/-- `manager::unlink_files`: create the working directory, then delete
every child with a filename whose name is not excluded. -/
def unlinkFiles (excluded : List (List Char)) (s : DiskState) : DiskState :=
  let ch := s.wd.getD []
  ⟨some (ch.filter fun e => e.1 = [] || excluded.contains e.1), s.hasLock⟩

/-- `manager::unlink`: keep only the lock file and the ancestor
directory of the current process (`proc`, when the process executes
below the working directory).  Process killing is external. -/
def unlink (proc : Option (List Char)) (s : DiskState) : DiskState :=
  let s1 := acquireLock s
  unlinkFiles (lockName :: proc.toList) s1

/-- `manager::prune`: keep the lock file, the latest directory, the
directory named after the current version, the directory named after the
latest available update, and the current process's ancestor. -/
def prune (m : Manager) (proc : Option (List Char)) (s : DiskState) : DiskState :=
  let s1 := acquireLock s
  let r := diskLatest s1
  let excl := lockName :: m.latestDir :: vstring m.currentVersion ::
    ((r.1.map fun c => vstring c.1).toList ++ proc.toList)
  unlinkFiles excl r.2

/-! ## http_downloader (detail/downloader.h)

The HTTP transport is an oracle `net : host → path → Bool` saying
whether a request succeeds with status 200 (cancellation shows up as the
oracle answering false).  Downloaded files are recorded by filename; the
local path stands in for the file on disk (its random component is
collapsed to a constant, which no modelled code observes). -/

/-- `internal::ensure_nonempty_prefix`. -/
def ensureLeadCh (c : Char) (text : List Char) : List Char :=
  match text with
  | [] => []
  | d :: ds => if d ≠ c then c :: d :: ds else d :: ds

/-- `internal::split_host_path`: everything up to the first path slash
(the double slash after the scheme is skipped) is the host. -/
def splitHostPathAux : List Char → List Char × List Char
  | [] => ([], [])
  | '/' :: '/' :: rest =>
    let hp := splitHostPathAux rest
    ('/' :: '/' :: hp.1, hp.2)
  | '/' :: rest => ([], '/' :: rest)
  | c :: rest =>
    let hp := splitHostPathAux rest
    (c :: hp.1, hp.2)

/-- `internal::split_host_path`, with the guaranteed leading slash. -/
def splitHostPath (url : List Char) : List Char × List Char :=
  let hp := splitHostPathAux url
  (hp.1, ensureLeadCh '/' hp.2)

/-- The trailing-slash trim of `http_downloader::split_url` (keeps a
root "/"), acting on the reversed path. -/
def trimSlashesRev : List Char → List Char
  | [] => []
  | [c] => [c]
  | c :: d :: rest => if c = '/' then trimSlashesRev (d :: rest) else c :: d :: rest

/-- `http_downloader::split_url`: require an HTTPS url, split host from
path, and trim trailing slashes beyond the root. -/
def splitUrl (url : List Char) : Except (List Char) (List Char × List Char) :=
  if isPrefOf (("https").data) url then
    let hp := splitHostPath url
    .ok (hp.1, (trimSlashesRev hp.2.reverse).reverse)
  else .error (("the base url must be an HTTPS url").data)

/-- The payload handed to each verifier: the primary path and the map of
all downloaded files. -/
structure VerifPayload where
  file : List Char
  files : List (List Char × List Char)

/-- A verifier: the auxiliary filenames it requires, and its check
(which throws on failure in the C++ source). -/
structure Verifier where
  files : List (List Char)
  run : VerifPayload → Except (List Char) Unit

/-- The downloader state. -/
structure Downloader where
  baseUrl : List Char
  host : List Char
  basePath : List Char
  additionalFiles : List (List Char)
  verifFuncs : List (VerifPayload → Except (List Char) Unit)
  fileUrlOverrides : List (List Char × List Char)
  downloadedFiles : List (List Char × List Char)

/-- Insertion into the `unordered_set` of additional files, modelled as
order-preserving deduplication. -/
def insertUnique (x : List Char) (l : List (List Char)) : List (List Char) :=
  if l.contains x then l else l ++ [x]

/-- `http_downloader::add_verification`: append the verification
function and register its auxiliary files. -/
def addVerification (d : Downloader) (v : Verifier) : Downloader :=
  { d with
    verifFuncs := d.verifFuncs ++ [v.run],
    additionalFiles := v.files.foldl (fun s f => insertUnique f s) d.additionalFiles }

/-- The local scratch path of a downloaded file
(`cwd() / random_string(8) / strip_leading_slash(filename)`). -/
def dlLocalPath (filename : List Char) : List Char :=
  if filename = [] then ("tmp/r8").data
  else ("tmp/r8/").data ++ filename.dropWhile (· = '/')

/-- `http_downloader::get_file(cli, filename, path)`: a cached filename
is returned as is; otherwise the request must succeed (the request path
gets a leading slash inside `download_to_file`) and the file map is
extended. -/
def getFileM (net : List Char → List Char → Bool) (host : List Char)
    (files : List (List Char × List Char)) (filename reqPath : List Char) :
    Except (List Char) (List Char × List (List Char × List Char)) :=
  match lookupEntry filename files with
  | some lp => .ok (lp, files)
  | none =>
    if net host (ensureLeadCh '/' reqPath) then
      let lp := dlLocalPath filename
      .ok (lp, files ++ [(filename, lp)])
    else .error (("failed to download ").data ++ host ++ reqPath)

/-- The request path of `http_downloader::get_file(cli, filename)`:
the base path plus the filename, which receives a leading slash unless
the base path is the root. -/
def mainReqPath (basePath filename : List Char) : List Char :=
  basePath ++ (if basePath ≠ ("/").data then ensureLeadCh '/' filename else filename)

/-- The fetch loop over the additional files: an overridden filename is
fetched from its own host via `get_external_file`, all others from the
downloader's base. -/
def fetchList (d : Downloader) (net : List Char → List Char → Bool) :
    List (List Char) → List (List Char × List Char) →
    Except (List Char) (List (List Char × List Char))
  | [], files => .ok files
  | af :: rest, files =>
    let r : Except (List Char) (List Char × List (List Char × List Char)) :=
      match lookupEntry af d.fileUrlOverrides with
      | some url =>
        match splitUrl url with
        | .error e => .error e
        | .ok hp => getFileM net hp.1 files af hp.2
      | none => getFileM net d.host files af (mainReqPath d.basePath af)
    match r with
    | .error e => .error e
    | .ok res => fetchList d net rest res.2

/-- The verification loop of `http_downloader::get`: verifiers run in
registration order; the first thrown failure propagates. -/
def runVerifiers (vs : List (VerifPayload → Except (List Char) Unit))
    (pl : VerifPayload) : Except (List Char) Unit :=
  match vs with
  | [] => .ok ()
  | v :: rest =>
    match v pl with
    | .error e => .error e
    | .ok _ => runVerifiers rest pl

/-- `http_downloader::get`: require a base url, fetch the additional
files first, then the primary file, then run every verifier on the
complete file map; only then is the primary file returned. -/
def dlGet (d : Downloader) (net : List Char → List Char → Bool)
    (path : List Char) : Except (List Char) (List Char × Downloader) :=
  if d.baseUrl = [] then .error (("downloader base url cannot be empty").data)
  else
    match fetchList d net d.additionalFiles d.downloadedFiles with
    | .error e => .error e
    | .ok files1 =>
      match getFileM net d.host files1 path (mainReqPath d.basePath path) with
      | .error e => .error e
      | .ok (result, files2) =>
        match runVerifiers d.verifFuncs ⟨path, files2⟩ with
        | .error e => .error e
        | .ok _ => .ok (result, { d with downloadedFiles := files2 })

/-! ## Claim-side definitions and concrete states -/

/-- Modelled from the spec (claim C6): an affix is boundary-like on the
left of the version iff it contains no digit that could extend the
version's numeric run on that side: it must not end in a digit, nor in a
digit followed by a period. -/
def boundaryLeftLike (p : List Char) : Bool :=
  match p.reverse with
  | [] => true
  | [y] => !isDig y
  | y :: x :: _ => !isDig y && !(y = '.' && isDig x)

/-- Modelled from the spec (claim C6): boundary-like on the right of the
version: the affix must not start with a digit, nor with a period
followed by a digit. -/
def boundaryRightLike (s : List Char) : Bool :=
  match s with
  | [] => true
  | [y] => !isDig y
  | y :: x :: _ => !isDig y && !(y = '.' && isDig x)

/-- The seven versions of the property test in claim C6. -/
def c6Versions : List (List Int) :=
  [[2], [13], [13451], [2, 331], [1, 4], [1, 3, 4], [13, 5246, 141]]

/-- The thirteen affixes of the property test in claim C6. -/
def c6Affixes : List (List Char) :=
  [[], (".").data, ("0").data, ("a").data, ("..").data, ("0.").data,
   (".1").data, ("01").data, ("a.").data, (".a").data, ("aa").data,
   ("5a").data, ("a8").data]

/-- A version directory with a well-formed sentinel naming `v`. -/
def sentinelDir (v : List Char) : FsNode :=
  .dir [(sentinelName, ("version=").data ++ v)]

/-- A working directory holding two distinct children that represent the
same version, each with a valid matching sentinel. -/
def dupWd : WDir :=
  [(("2.1").data, sentinelDir (("2.1").data)),
   (("2.1.0").data, sentinelDir (("2.1.0").data))]

/-- A working directory with the duplicate pair 1.0 / 1.0.0 separated by
the strictly greater 2.0, all three with valid sentinels. -/
def orderWd : WDir :=
  [(("1.0").data, sentinelDir (("1.0").data)),
   (("2.0").data, sentinelDir (("2.0").data)),
   (("1.0.0").data, sentinelDir (("1.0.0").data))]

/-- A post-update operation that always fails. -/
def failOp : DirOp := fun _ => .error (("boom").data)

/-- An example manager configuration. -/
def exManager : Manager := ⟨("current").data, [1, 0], []⟩

/-- An example working directory: a populated current directory at
version 1.0 and a staged update 1.1. -/
def exWd : WDir :=
  [(("current").data, sentinelDir (("1.0").data)),
   (("1.1").data, sentinelDir (("1.1").data))]

/-- An example verifier requiring an auxiliary manifest file to have
been downloaded. -/
def exVerifier : Verifier :=
  ⟨[("SHA256SUMS.txt").data],
    fun pl =>
      if (lookupEntry (("SHA256SUMS.txt").data) pl.files).isSome then .ok ()
      else .error (("sha256sums file not available").data)⟩

/-- An example downloader with a base url and the example verifier. -/
def exDownloader : Downloader :=
  addVerification
    { baseUrl := ("https://host.io/base/").data,
      host := ("https://host.io").data,
      basePath := ("/base").data,
      additionalFiles := [], verifFuncs := [], fileUrlOverrides := [],
      downloadedFiles := [] }
    exVerifier

/-- Success observation on a parse result (an uncaught C++ exception
versus a normal return). -/
def isOkB : Except Unit (List Int) → Bool
  | .ok _ => true
  | .error _ => false

/-- A 64-hex-digit hash for the sha256sums examples. -/
def c8Hash : List Char := List.replicate 64 'a'

/-- A well-formed final manifest line with no terminating newline. -/
def c8Input : List Char := c8Hash ++ (" *release-1.2.3.zip").data

/-- A network oracle where every request succeeds. -/
def exNet : List Char → List Char → Bool := fun _ _ => true

/-- The file map after `get` fetches the manifest and the release. -/
def exFiles : List (List Char × List Char) :=
  [(("SHA256SUMS.txt").data, dlLocalPath (("SHA256SUMS.txt").data)),
   (("release-1.2.3.zip").data, dlLocalPath (("release-1.2.3.zip").data))]

/-- The downloader state after the example `get`. -/
def exD2 : Downloader := { exDownloader with downloadedFiles := exFiles }

/-! ## Order lemmas for the version comparison

`vlt` on two lists equals plain lexicographic comparison after padding
both with zeros to a common length; transitivity and its negative form
follow from the corresponding facts about the lexicographic order. -/

/-- Plain lexicographic comparison (used on lists of equal length). -/
def lexLt : List Int → List Int → Bool
  | _ :: _, [] => false
  | [], _ => false
  | a :: as, b :: bs => if a < b then true else if b < a then false else lexLt as bs

/-- Zero-padding to a target length. -/
def padTo (n : Nat) (a : List Int) : List Int :=
  a ++ List.replicate (n - a.length) 0

/-! ## Scan analysis

`scanAcc` re-expresses the `latest_available_update` loop over the
candidate list only: `some acc` means the loop survived with running
best `acc`, `none` means the early `return std::nullopt` of the
duplicate check fired.  `scanLoop` is its `Option.join`. -/

/-- The scan loop restricted to the candidates. -/
def scanAcc : List (List Int × List Char) → Option (List Int × List Char) →
    Option (Option (List Int × List Char))
  | [], acc => some acc
  | c :: l, acc =>
    match acc with
    | none => scanAcc l (some c)
    | some r =>
      if veq c.1 r.1 then none
      else if vlt r.1 c.1 then scanAcc l (some c) else scanAcc l (some r)

theorem padTo_length {n : Nat} {a : List Int} (h : a.length ≤ n) :
    (padTo n a).length = n := by
  simp [padTo]; omega

theorem vlt_nil_left (b : List Int) : vlt [] b = vltRight b := by
  cases b <;> rfl

theorem vlt_nil_right (a : List Int) : vlt a [] = vltLeft a := by
  cases a <;> rfl

theorem lexLt_refl (a : List Int) : lexLt a a = false := by
  induction a with
  | nil => rfl
  | cons x xs ih => simp [lexLt, ih]

theorem vlt_eq_lexLt (n : Nat) :
    ∀ a b : List Int, a.length ≤ n → b.length ≤ n →
      vlt a b = lexLt (padTo n a) (padTo n b) := by
  induction n with
  | zero =>
    intro a b ha hb
    have ha0 : a = [] := by cases a <;> simp_all
    have hb0 : b = [] := by cases b <;> simp_all
    subst ha0; subst hb0; rfl
  | succ m ih =>
    intro a b ha hb
    match a, b with
    | [], [] =>
      show false = lexLt (padTo (m + 1) []) (padTo (m + 1) [])
      rw [lexLt_refl]
    | [], y :: ys =>
      have hpad : padTo (m + 1) [] = 0 :: padTo m [] := by
        simp [padTo, List.replicate_succ]
      have hpad2 : padTo (m + 1) (y :: ys) = y :: padTo m ys := by
        simp [padTo, Nat.succ_sub_succ]
      rw [hpad, hpad2, vlt_nil_left]
      have := ih [] ys (by simp) (by simpa using Nat.lt_succ_iff.mp hb)
      rw [vlt_nil_left] at this
      show vltRight (y :: ys) = lexLt (0 :: padTo m []) (y :: padTo m ys)
      simp only [lexLt, vltRight]
      rcases lt_trichotomy y 0 with h | h | h
      · have h2 : ¬ (0 : Int) < y := by omega
        simp [h, h2]
      · subst h; simp [this]
      · have h2 : ¬ y < (0 : Int) := by omega
        simp [h, h2]
    | x :: xs, [] =>
      have hpad : padTo (m + 1) [] = 0 :: padTo m [] := by
        simp [padTo, List.replicate_succ]
      have hpad2 : padTo (m + 1) (x :: xs) = x :: padTo m xs := by
        simp [padTo, Nat.succ_sub_succ]
      rw [hpad, hpad2, vlt_nil_right]
      have := ih xs [] (by simpa using Nat.lt_succ_iff.mp ha) (by simp)
      rw [vlt_nil_right] at this
      show vltLeft (x :: xs) = lexLt (x :: padTo m xs) (0 :: padTo m [])
      simp only [lexLt, vltLeft]
      rcases lt_trichotomy x 0 with h | h | h
      · have h2 : ¬ (0 : Int) < x := by omega
        simp [h, h2]
      · subst h; simp [this]
      · have h2 : ¬ x < (0 : Int) := by omega
        simp [h, h2]
    | x :: xs, y :: ys =>
      have hpad : padTo (m + 1) (x :: xs) = x :: padTo m xs := by
        simp [padTo, Nat.succ_sub_succ]
      have hpad2 : padTo (m + 1) (y :: ys) = y :: padTo m ys := by
        simp [padTo, Nat.succ_sub_succ]
      rw [hpad, hpad2]
      show vlt (x :: xs) (y :: ys) = lexLt (x :: padTo m xs) (y :: padTo m ys)
      simp only [vlt, lexLt]
      rcases lt_trichotomy x y with h | h | h
      · simp [h]
      · subst h
        simp only [lt_irrefl, if_false]
        exact ih xs ys (by simpa using Nat.lt_succ_iff.mp ha)
          (by simpa using Nat.lt_succ_iff.mp hb)
      · have h2 : ¬ x < y := by omega
        simp [h, h2]

theorem lexLt_trans : ∀ a b c : List Int,
    lexLt a b = true → lexLt b c = true → lexLt a c = true := by
  intro a
  induction a with
  | nil => intro b c h1; simp [lexLt] at h1
  | cons x xs ih =>
    intro b c h1 h2
    match b, c with
    | [], _ => simp [lexLt] at h1
    | _ :: _, [] => simp [lexLt] at h2
    | y :: ys, z :: zs =>
      simp only [lexLt] at h1 h2 ⊢
      by_cases hxy : x < y
      · by_cases hyz : y < z
        · rw [if_pos (by omega)]
        · simp only [if_pos hxy] at h1
          rw [if_neg hyz] at h2
          by_cases hzy : z < y
          · simp [hzy] at h2
          · have : y = z := by omega
            rw [if_pos (by omega)]
      · rw [if_neg hxy] at h1
        by_cases hyx : y < x
        · simp [hyx] at h1
        · simp only [if_neg hyx] at h1
          have hxy' : x = y := by omega
          subst hxy'
          by_cases hyz : x < z
          · rw [if_pos hyz]
          · rw [if_neg hyz] at h2 ⊢
            by_cases hzy : z < x
            · simp [hzy] at h2
            · rw [if_neg hzy] at h2 ⊢
              exact ih ys zs h1 h2

theorem lexLt_negtrans : ∀ a b c : List Int,
    a.length = b.length → b.length = c.length →
    lexLt a b = false → lexLt b c = false → lexLt a c = false := by
  intro a
  induction a with
  | nil =>
    intro b c _ _ _ _
    cases c <;> rfl
  | cons x xs ih =>
    intro b c hab hbc h1 h2
    match b, c with
    | y :: ys, z :: zs =>
      simp only [lexLt] at h1 h2 ⊢
      by_cases hxy : x < y
      · simp [hxy] at h1
      · rw [if_neg hxy] at h1
        by_cases hyz : y < z
        · simp [hyz] at h2
        · rw [if_neg hyz] at h2
          by_cases hxz : x < z
          · omega
          · rw [if_neg hxz]
            by_cases hzx : z < x
            · simp [hzx]
            · rw [if_neg hzx]
              by_cases hyx : y < x
              · omega
              · rw [if_neg hyx] at h1
                by_cases hzy : z < y
                · omega
                · rw [if_neg hzy] at h2
                  simp only [List.length_cons, Nat.succ_inj] at hab hbc
                  exact ih ys zs hab hbc h1 h2

theorem vlt_trans {a b c : List Int}
    (h1 : vlt a b = true) (h2 : vlt b c = true) : vlt a c = true := by
  set n := max (max a.length b.length) c.length with hn
  have ha : a.length ≤ n := by omega
  have hb : b.length ≤ n := by omega
  have hc : c.length ≤ n := by omega
  rw [vlt_eq_lexLt n a b ha hb] at h1
  rw [vlt_eq_lexLt n b c hb hc] at h2
  rw [vlt_eq_lexLt n a c ha hc]
  exact lexLt_trans _ _ _ h1 h2

theorem vlt_negtrans {a b c : List Int}
    (h1 : vlt a b = false) (h2 : vlt b c = false) : vlt a c = false := by
  set n := max (max a.length b.length) c.length with hn
  have ha : a.length ≤ n := by omega
  have hb : b.length ≤ n := by omega
  have hc : c.length ≤ n := by omega
  rw [vlt_eq_lexLt n a b ha hb] at h1
  rw [vlt_eq_lexLt n b c hb hc] at h2
  rw [vlt_eq_lexLt n a c ha hc]
  exact lexLt_negtrans _ _ _ (by rw [padTo_length ha, padTo_length hb])
    (by rw [padTo_length hb, padTo_length hc]) h1 h2

theorem veq_true_iff {a b : List Int} :
    veq a b = true ↔ vlt a b = false ∧ vlt b a = false := by
  simp [veq]

theorem veq_symm (a b : List Int) : veq a b = veq b a := by
  simp [veq, Bool.and_comm]

theorem veq_of_vne_false {a b : List Int} (h : vne a b = false) :
    veq a b = true := by
  simpa [vne] using h

theorem vlt_irrefl (a : List Int) : vlt a a = false := by
  induction a with
  | nil => rfl
  | cons x xs ih => simp [vlt, ih]

theorem veq_negtrans {a b c : List Int}
    (h1 : veq a b = true) (h2 : veq b c = true) : veq a c = true := by
  rw [veq_true_iff] at h1 h2 ⊢
  exact ⟨vlt_negtrans h1.1 h2.1, vlt_negtrans h2.2 h1.2⟩

theorem scanLoop_eq_scanAcc :
    ∀ (wd : WDir) (acc : Option (List Int × List Char)),
      scanLoop wd acc = (scanAcc (candList wd) acc).join := by
  intro wd
  induction wd with
  | nil => intro acc; cases acc <;> rfl
  | cons e rest ih =>
    intro acc
    obtain ⟨n, node⟩ := e
    cases hc : candVer n node with
    | none =>
      have hcl : candList ((n, node) :: rest) = candList rest := by
        simp [candList, List.filterMap_cons, hc]
      rw [hcl]
      simpa [scanLoop, hc] using ih acc
    | some v =>
      have hcl : candList ((n, node) :: rest) = (v, n) :: candList rest := by
        simp [candList, List.filterMap_cons, hc]
      rw [hcl]
      cases acc with
      | none => simpa [scanLoop, hc, scanAcc] using ih (some (v, n))
      | some r =>
        obtain ⟨rv, rp⟩ := r
        by_cases hveq : veq v rv = true
        · simp [scanLoop, hc, scanAcc, hveq]
        · by_cases hvlt : vlt rv v = true
          · simpa [scanLoop, hc, scanAcc, hveq, hvlt] using ih (some (v, n))
          · simpa [scanLoop, hc, scanAcc, hveq, hvlt] using ih (some (rv, rp))

theorem scanAcc_append (l1 l2 : List (List Int × List Char))
    (acc : Option (List Int × List Char)) :
    scanAcc (l1 ++ l2) acc =
      (scanAcc l1 acc).bind fun acc2 => scanAcc l2 acc2 := by
  induction l1 generalizing acc with
  | nil => rfl
  | cons c l ih =>
    cases acc with
    | none => simpa [scanAcc] using ih (some c)
    | some r =>
      by_cases hveq : veq c.1 r.1 = true
      · simp [scanAcc, hveq]
      · by_cases hvlt : vlt r.1 c.1 = true
        · simpa [scanAcc, hveq, hvlt] using ih (some c)
        · simpa [scanAcc, hveq, hvlt] using ih (some r)

/-- The scan never forgets a running best: starting from `some a` it can
halt, but cannot end with an empty best. -/
theorem scanAcc_some_ne_none :
    ∀ (l : List (List Int × List Char)) (a : List Int × List Char),
      scanAcc l (some a) ≠ some none := by
  intro l
  induction l with
  | nil => intro a h; simp [scanAcc] at h
  | cons c rest ih =>
    intro a h
    simp only [scanAcc] at h
    by_cases hveq : veq c.1 a.1 = true
    · simp [hveq] at h
    · by_cases hvlt : vlt a.1 c.1 = true
      · rw [if_neg (by simp [hveq]), if_pos hvlt] at h
        exact ih c h
      · rw [if_neg (by simp [hveq]), if_neg hvlt] at h
        exact ih a h

/-- Invariant of a surviving scan: the final best is not below any
scanned candidate nor below the initial best, and it is one of them. -/
theorem scanAcc_max :
    ∀ (l : List (List Int × List Char)) (acc : Option (List Int × List Char))
      (r : List Int × List Char),
      scanAcc l acc = some (some r) →
      (∀ x ∈ l, vlt r.1 x.1 = false) ∧
        (∀ a, acc = some a → vlt r.1 a.1 = false) ∧
        (r ∈ l ∨ acc = some r) := by
  intro l
  induction l with
  | nil =>
    intro acc r h
    simp only [scanAcc, Option.some_inj] at h
    subst h
    exact ⟨by simp, fun a ha => by simp_all [vlt_irrefl], by simp⟩
  | cons c rest ih =>
    intro acc r h
    cases acc with
    | none =>
      simp only [scanAcc] at h
      obtain ⟨h1, h2, h3⟩ := ih (some c) r h
      refine ⟨?_, by simp, ?_⟩
      · intro x hx
        rcases List.mem_cons.mp hx with hx | hx
        · rw [hx]; exact h2 c rfl
        · exact h1 x hx
      · rcases h3 with h3 | h3
        · exact Or.inl (List.mem_cons_of_mem _ h3)
        · exact Or.inl (by simp_all)
    | some a =>
      simp only [scanAcc] at h
      by_cases hveq : veq c.1 a.1 = true
      · simp [hveq] at h
      · rw [if_neg (by simp [hveq])] at h
        by_cases hvlt : vlt a.1 c.1 = true
        · rw [if_pos hvlt] at h
          obtain ⟨h1, h2, h3⟩ := ih (some c) r h
          have hrc : vlt r.1 c.1 = false := h2 c rfl
          refine ⟨?_, ?_, ?_⟩
          · intro x hx
            rcases List.mem_cons.mp hx with hx | hx
            · rw [hx]; exact hrc
            · exact h1 x hx
          · intro b hb
            injection hb with hb; subst hb
            by_contra hra
            have := vlt_trans (by simpa using hra) hvlt
            simp [hrc] at this
          · rcases h3 with h3 | h3
            · exact Or.inl (List.mem_cons_of_mem _ h3)
            · exact Or.inl (by simp_all)
        · rw [if_neg hvlt] at h
          obtain ⟨h1, h2, h3⟩ := ih (some a) r h
          have hra : vlt r.1 a.1 = false := h2 a rfl
          have hac : vlt a.1 c.1 = false := by simpa using hvlt
          refine ⟨?_, ?_, ?_⟩
          · intro x hx
            rcases List.mem_cons.mp hx with hx | hx
            · rw [hx]; exact vlt_negtrans hra hac
            · exact h1 x hx
          · intro b hb
            injection hb with hb; subst hb
            exact hra
          · rcases h3 with h3 | h3
            · exact Or.inl (List.mem_cons_of_mem _ h3)
            · exact Or.inr h3

/-- A halted-with-empty-best scan can only come from an empty candidate
list and an empty initial best. -/
theorem scanAcc_eq_some_none :
    ∀ (l : List (List Int × List Char)) (acc : Option (List Int × List Char)),
      scanAcc l acc = some none → acc = none ∧ l = [] := by
  intro l
  induction l with
  | nil =>
    intro acc h
    simp only [scanAcc, Option.some_inj] at h
    exact ⟨h, rfl⟩
  | cons c rest ih =>
    intro acc h
    cases acc with
    | none =>
      simp only [scanAcc] at h
      exact absurd h (scanAcc_some_ne_none rest c)
    | some a =>
      simp only [scanAcc] at h
      by_cases hveq : veq c.1 a.1 = true
      · simp [hveq] at h
      · rw [if_neg (by simp [hveq])] at h
        by_cases hvlt : vlt a.1 c.1 = true
        · rw [if_pos hvlt] at h
          exact absurd h (scanAcc_some_ne_none rest c)
        · rw [if_neg hvlt] at h
          exact absurd h (scanAcc_some_ne_none rest a)

/-- With pairwise inequivalent candidates the duplicate check never
fires, and the scan is the plain greatest-so-far fold. -/
theorem scanAcc_nodup :
    ∀ (l : List (List Int × List Char)) (acc : Option (List Int × List Char)),
      (∀ a, acc = some a → ∀ x ∈ l, veq x.1 a.1 = false) →
      l.Pairwise (fun a b => veq a.1 b.1 = false) →
      scanAcc l acc = some (l.foldl (fun acc c =>
        match acc with
        | none => some c
        | some r => if vlt r.1 c.1 then some c else some r) acc) := by
  intro l
  induction l with
  | nil => intro acc _ _; rfl
  | cons c rest ih =>
    intro acc hacc hpw
    have hh : ∀ x ∈ rest, veq c.1 x.1 = false :=
      fun x hx => List.rel_of_pairwise_cons hpw hx
    have hpw2 : rest.Pairwise (fun a b => veq a.1 b.1 = false) :=
      List.Pairwise.of_cons hpw
    cases acc with
    | none =>
      simp only [scanAcc, List.foldl_cons]
      exact ih (some c)
        (fun a ha x hx => by
          injection ha with ha; subst ha
          rw [veq_symm]; exact hh x hx) hpw2
    | some a =>
      have hca : veq c.1 a.1 = false := hacc a rfl c (by simp)
      simp only [scanAcc, List.foldl_cons]
      rw [if_neg (by simp [hca])]
      by_cases hvlt : vlt a.1 c.1 = true
      · rw [if_pos hvlt]
        show _ = some (List.foldl _ (if vlt a.1 c.1 = true then some c else some a) rest)
        rw [if_pos hvlt]
        exact ih (some c)
          (fun b hb x hx => by
            injection hb with hb; subst hb
            rw [veq_symm]; exact hh x hx) hpw2
      · rw [if_neg hvlt]
        show _ = some (List.foldl _ (if vlt a.1 c.1 = true then some c else some a) rest)
        rw [if_neg hvlt]
        exact ih (some a)
          (fun b hb x hx => by
            injection hb with h2
            rw [← h2]
            exact hacc a rfl x (List.mem_cons_of_mem _ hx)) hpw2

/-- Claim C3 (counterexample): in a working directory holding the two
valid version directories 2.1 and 2.1.0, a greatest valid candidate
exists, yet `latest_available_update` returns absent — contradicting
the claim that absent is returned only when no valid child exists. -/
theorem c3_counterexample :
    latestAvailableUpdate dupWd = none ∧ candList dupWd ≠ [] := by
  constructor
  · decide
  · decide

/-- Claim C3 (amended): provided no two valid candidates represent equal
versions, `latest_available_update` returns exactly the greatest valid
candidate (directory version and path) of the enumeration — in
particular absent exactly when there is no valid candidate, and a child
without a valid matching sentinel, or whose name (such as the default
current-directory name) does not parse as a version, is never
returned. -/
theorem c3_amended (wd : WDir)
    (hnodup : (candList wd).Pairwise fun a b => veq a.1 b.1 = false) :
    latestAvailableUpdate wd = specGreatest (candList wd) := by
  rw [latestAvailableUpdate, scanLoop_eq_scanAcc,
    scanAcc_nodup (candList wd) none (by simp) hnodup]
  rfl

theorem c3_witness :
    (candList exWd).Pairwise (fun a b => veq a.1 b.1 = false) ∧
      latestAvailableUpdate exWd = specGreatest (candList exWd) :=
  ⟨by decide, c3_amended exWd (by decide)⟩

/-- Claim C4 (counterexample): the working directory contains the two
distinct valid children 1.0 and 1.0.0 with equal versions, yet with the
enumeration order 1.0, 2.0, 1.0.0 the scan returns 2.0 rather than
absent — the claim fails for states where another version directory is
enumerated between the duplicates. -/
theorem c4_counterexample :
    latestAvailableUpdate orderWd = some ([2, 0], ("2.0").data) ∧
      (("1.0").data, sentinelDir (("1.0").data)) ∈ orderWd ∧
      (("1.0.0").data, sentinelDir (("1.0.0").data)) ∈ orderWd ∧
      veq [1, 0] [1, 0, 0] = true := by
  refine ⟨by decide, by decide, by decide, by decide⟩

/-- Claim C4 (amended): if two valid candidates represent equal versions
and that version is greatest among all candidates (not below any of
them), then `latest_available_update` returns absent, in every
enumeration order. -/
theorem c4_amended (wd : WDir) (l1 l2 l3 : List (List Int × List Char))
    (c1 c2 : List Int × List Char)
    (hsplit : candList wd = l1 ++ c1 :: l2 ++ c2 :: l3)
    (heq : veq c1.1 c2.1 = true)
    (hmax : ∀ x ∈ candList wd, vlt c1.1 x.1 = false) :
    latestAvailableUpdate wd = none := by
  rw [latestAvailableUpdate, scanLoop_eq_scanAcc, hsplit, scanAcc_append]
  cases hA : scanAcc (l1 ++ c1 :: l2) none with
  | none => rfl
  | some acc2 =>
    cases acc2 with
    | none =>
      obtain ⟨-, habs⟩ := scanAcc_eq_some_none _ _ hA
      exact absurd habs (by simp)
    | some r =>
      obtain ⟨h1, -, h3⟩ := scanAcc_max _ _ _ hA
      have hrc1 : vlt r.1 c1.1 = false := h1 c1 (by simp)
      have hrmem : r ∈ candList wd := by
        rcases h3 with h3 | h3
        · rw [hsplit]
          exact List.mem_append.mpr (Or.inl h3)
        · exact absurd h3 (by simp)
      have hc1r : vlt c1.1 r.1 = false := hmax r hrmem
      have hveq_rc1 : veq r.1 c1.1 = true := veq_true_iff.mpr ⟨hrc1, hc1r⟩
      have hveq_rc2 : veq r.1 c2.1 = true := veq_negtrans hveq_rc1 heq
      have hveq_c2r : veq c2.1 r.1 = true := by rw [veq_symm]; exact hveq_rc2
      show (scanAcc (c2 :: l3) (some r)).join = none
      simp [scanAcc, hveq_c2r]

theorem c4_witness :
    candList dupWd = [] ++ ([2, 1], ("2.1").data) :: [] ++
        ([2, 1, 0], ("2.1.0").data) :: [] ∧
      veq [2, 1] [2, 1, 0] = true ∧
      latestAvailableUpdate dupWd = none :=
  ⟨by decide, by decide,
    c4_amended dupWd [] [] [] ([2, 1], ("2.1").data)
      ([2, 1, 0], ("2.1.0").data) (by decide) (by decide) (by decide)⟩

/-! ## Claims C6, C7, C8, C9 (counterexample), C2, C10, C1 -/

set_option maxRecDepth 10000 in
/-- Claim C6: for each of the seven versions and each prefix and suffix
from the thirteen-affix set, the filename prefix ++ v.string() ++ suffix
passes `regex_contains` with `filename_contains_version_pattern` exactly
when the prefix and the suffix are each boundary-like (no digit that
could extend the version's numeric run on that side). -/
theorem c6_version_in_filename_grid :
    ∀ v ∈ c6Versions, ∀ p ∈ c6Affixes, ∀ s ∈ c6Affixes,
      regexContainsVersion (vstring v) (p ++ vstring v ++ s) =
        (boundaryLeftLike p && boundaryRightLike s) := by
  decide

theorem c6_witness :
    [1, 3, 4] ∈ c6Versions ∧ ("a").data ∈ c6Affixes ∧
      ("..").data ∈ c6Affixes ∧
      regexContainsVersion (vstring [1, 3, 4])
          (("a").data ++ vstring [1, 3, 4] ++ ("..").data) =
        (boundaryLeftLike (("a").data) && boundaryRightLike (("..").data)) :=
  ⟨by decide, by decide, by decide,
    c6_version_in_filename_grid [1, 3, 4] (by decide) (("a").data) (by decide)
      (("..").data) (by decide)⟩

/-- Claim C7 (counterexample): inputs the claim says must fail with an
error are parsed successfully — an empty piece yields the component 0
("1..2" parses as 1.0.2, "1." as 1.0), and a prefix occurring only at a
later position is accepted ("21" with prefix "1" parses as 1). -/
theorem c7_counterexample :
    from_string (("1..2").data) [] = .ok [1, 0, 2] ∧
      from_string (("1.").data) [] = .ok [1, 0] ∧
      from_string (("21").data) (("1").data) = .ok [1] := by
  refine ⟨rfl, rfl, rfl⟩

theorem parseRun_isOk (cs : List Char) :
    ∀ n, isOkB (parseRun cs n) = cs.all fun c => c = '.' || isDig c := by
  induction cs with
  | nil => intro n; rfl
  | cons c rest ih =>
    intro n
    simp only [parseRun, List.all_cons]
    by_cases hdot : c = '.'
    · rw [if_pos hdot]
      have : isOkB ((parseRun rest 0).map fun ns => n :: ns) =
          isOkB (parseRun rest 0) := by
        cases parseRun rest 0 <;> rfl
      rw [this, ih 0]
      simp [hdot]
    · rw [if_neg hdot]
      by_cases hdig : isDig c = true
      · rw [if_pos hdig, ih (n * 10 + dval c)]
        simp [hdot, hdig]
      · rw [if_neg hdig]
        simp [isOkB, hdot, hdig]

/-- Claim C7 (amended): `version_number::from_string(s, pre)` returns
normally exactly when `pre` occurs somewhere in `s` as a substring and
every character of `s` from index `pre.size()` on is a period or an
ASCII digit; the remainder is split on '.' and each piece is read as a
decimal number, an empty piece yielding the component 0.  On every
other input it throws. -/
theorem c7_amended (s pre : List Char) :
    isOkB (from_string s pre) =
      (containsSubstr s pre &&
        (s.drop pre.length).all fun c => c = '.' || isDig c) := by
  unfold from_string
  by_cases hc : containsSubstr s pre = true
  · rw [if_pos hc, hc, Bool.true_and]
    exact parseRun_isOk _ 0
  · rw [if_neg hc]
    simp only [Bool.not_eq_true] at hc
    rw [hc, Bool.false_and]
    rfl

set_option maxRecDepth 8000 in
set_option maxHeartbeats 2000000 in
/-- Claim C8: `parse_sha256sums` drops a well-formed final line that is
not followed by a terminating newline — the state machine only emits an
entry on a line terminator seen in state 2, so the same manifest parses
to one entry with a trailing newline and to the empty list without it,
for any platform path separator.  The spec requires the final entry to
be emitted at end of input. -/
theorem c8_final_entry_dropped :
    ∀ sep : Char,
      parse_sha256sums sep c8Input = [] ∧
        parse_sha256sums sep (c8Input ++ ("\n").data) =
          [(c8Hash, ("release-1.2.3.zip").data)] :=
  fun _ => ⟨rfl, rfl⟩

/-- Claim C9 (counterexample): a sentinel file whose single line is
terminated by CRLF is rejected by `sentinel::read` — `std::getline`
leaves the carriage return in the value, and version parsing throws on
it — although the claim says reading succeeds and yields the version. -/
theorem c9_counterexample :
    decodeSentinel (("version=1\r\n").data) = none := by
  rfl

/-- Claim C2 (counterexample): when the single post-update operation
fails after the scratch directory has been renamed into the working
directory, `extract_archive` throws the stage-identifying error, but
the committed directory <working_dir>/1 is still present afterwards —
the claim says it is removed. -/
theorem c2_counterexample :
    (extract_archive [] [failOp] [1] [(("f").data, ("x").data)] []).1 =
        .error (("post-update operation failed: boom").data) ∧
      lookupChild (vstring [1])
          (extract_archive [] [failOp] [1] [(("f").data, ("x").data)] []).2 =
        some (.dir [(("f").data, ("x").data)]) := by
  refine ⟨rfl, rfl⟩

theorem lookupChild_erase_append (n : List Char) (wd : WDir) (rest : WDir) :
    lookupChild n (eraseChild n wd ++ rest) = lookupChild n rest := by
  induction wd with
  | nil => rfl
  | cons e es ih =>
    by_cases he : e.1 = n
    · simpa [eraseChild, he] using ih
    · simpa [eraseChild, he, lookupChild] using ih

/-- Claim C2 (amended): if the content operations succeed and a
post-update operation then fails, `extract_archive` fails with an error
identifying the stage ("post-update operation failed: ..."), and the
now-committed directory <working_dir>/<version> remains present in the
working directory (holding the contents as of the last successful
operation, without a sentinel having been written); only the scratch
directory is cleaned up. -/
theorem c2_amended (contentOps postOps : List DirOp) (version : List Int)
    (archive : List (List Char × List Char)) (wd : WDir)
    (d2 d3 : List (List Char × List Char)) (e : List Char)
    (hcontent : runOps2 contentOps archive = (none, d2))
    (hpost : runOps2 postOps d2 = (some e, d3)) :
    (extract_archive contentOps postOps version archive wd).1 =
        .error (("post-update operation failed: ").data ++ e) ∧
      lookupChild (vstring version)
          (extract_archive contentOps postOps version archive wd).2 =
        some (.dir d3) := by
  have hres : extract_archive contentOps postOps version archive wd =
      (.error (("post-update operation failed: ").data ++ e),
        eraseChild (vstring version) wd ++ [(vstring version, .dir d3)]) := by
    simp only [extract_archive, hcontent, hpost]
  rw [hres]
  refine ⟨rfl, ?_⟩
  rw [lookupChild_erase_append]
  simp [lookupChild]

theorem c2_witness :
    runOps2 [] [(("f").data, ("x").data)] = (none, [(("f").data, ("x").data)]) ∧
      runOps2 [failOp] [(("f").data, ("x").data)] =
        (some (("boom").data), [(("f").data, ("x").data)]) ∧
      (extract_archive [] [failOp] [2] [(("f").data, ("x").data)] []).1 =
          .error (("post-update operation failed: boom").data) ∧
      lookupChild (vstring [2])
          (extract_archive [] [failOp] [2] [(("f").data, ("x").data)] []).2 =
        some (.dir [(("f").data, ("x").data)]) := by
  refine ⟨rfl, rfl, ?_⟩
  exact c2_amended [] [failOp] [2] [(("f").data, ("x").data)] []
    [(("f").data, ("x").data)] [(("f").data, ("x").data)] (("boom").data)
    rfl rfl

/-- Claim C10: calling `latest_available_update`, `prune` or `unlink` on
a manager whose working directory does not exist on disk (and whose lock
is not held) does not fail: each call materialises the working directory
with the lock file inside it, and `latest_available_update` returns
absent. -/
theorem c10_materialises_working_dir (m : Manager) (proc : Option (List Char)) :
    (diskLatest ⟨none, false⟩).1 = none ∧
      (diskLatest ⟨none, false⟩).2 = ⟨some [(lockName, .file [])], true⟩ ∧
      (prune m proc ⟨none, false⟩).wd = some [(lockName, .file [])] ∧
      (unlink proc ⟨none, false⟩).wd = some [(lockName, .file [])] := by
  refine ⟨rfl, rfl, rfl, rfl⟩

theorem runVerifiers_ok :
    ∀ (vs : List (VerifPayload → Except (List Char) Unit)) (pl : VerifPayload),
      runVerifiers vs pl = .ok () → ∀ vf ∈ vs, vf pl = .ok () := by
  intro vs
  induction vs with
  | nil => intro pl _ vf hm; simp at hm
  | cons v rest ih =>
    intro pl h vf hm
    simp only [runVerifiers] at h
    cases hv : v pl with
    | error e => rw [hv] at h; exact absurd h (by simp)
    | ok u =>
      rw [hv] at h
      rcases List.mem_cons.mp hm with hm | hm
      · subst hm; cases u; exact hv
      · exact ih pl h vf hm

/-- Claim C1: whenever `http_downloader::get` returns a downloaded file
(rather than throwing), every verifier registered with
`add_verification` — run in registration order after all auxiliary files
and the primary file have been fetched — returned success on the payload
carrying the primary filename and the complete downloaded-file map. -/
theorem c1_get_runs_all_verifiers (d : Downloader)
    (net : List Char → List Char → Bool) (path f : List Char)
    (d2 : Downloader) (h : dlGet d net path = .ok (f, d2)) :
    ∀ vf ∈ d.verifFuncs, vf ⟨path, d2.downloadedFiles⟩ = .ok () := by
  rw [dlGet] at h
  split at h
  · exact absurd h (by simp)
  · split at h
    · exact absurd h (by simp)
    · split at h
      · exact absurd h (by simp)
      · rename_i files1 hfetch pr hget
        split at h
        · exact absurd h (by simp)
        · rename_i u hrun
          injection h with h
          injection h with h1 h2
          subst h2
          intro vf hm
          exact runVerifiers_ok d.verifFuncs _ (by rw [hrun]) vf hm

theorem c1_witness :
    exVerifier.run ⟨("release-1.2.3.zip").data, exFiles⟩ = .ok () :=
  c1_get_runs_all_verifiers exDownloader exNet (("release-1.2.3.zip").data)
    (dlLocalPath (("release-1.2.3.zip").data)) exD2 rfl exVerifier.run
    (by simp [exDownloader, addVerification])

/-! ## Helper lemmas for apply_latest -/

theorem lookupChild_of_mem_nodup :
    ∀ {wd : WDir} {n : List Char} {node : FsNode},
      (wd.map Prod.fst).Nodup → (n, node) ∈ wd →
      lookupChild n wd = some node := by
  intro wd
  induction wd with
  | nil => intro n node _ hm; simp at hm
  | cons e es ih =>
    intro n node hnd hm
    rcases List.mem_cons.mp hm with hm | hm
    · rw [← hm]
      simp [lookupChild]
    · by_cases he : e.1 = n
      · exfalso
        have : n ∈ es.map Prod.fst :=
          List.mem_map.mpr ⟨(n, node), hm, rfl⟩
        rw [List.map_cons] at hnd
        exact (List.nodup_cons.mp hnd).1 (he ▸ this)
      · rw [List.map_cons] at hnd
        simpa [lookupChild, he] using ih (List.nodup_cons.mp hnd).2 hm

theorem lookupChild_none_forall :
    ∀ {wd : WDir} {n : List Char}, lookupChild n wd = none →
      ∀ e ∈ wd, e.1 ≠ n := by
  intro wd
  induction wd with
  | nil => intro n _ e hm; simp at hm
  | cons c cs ih =>
    intro n h e hm
    simp only [lookupChild] at h
    by_cases hc : c.1 = n
    · rw [if_pos hc] at h; exact absurd h (by simp)
    · rw [if_neg hc] at h
      rcases List.mem_cons.mp hm with hm | hm
      · rw [hm]; exact hc
      · exact ih h e hm

theorem lookupChild_rename_hit :
    ∀ (wdA : WDir) (p q : List Char) (X : FsNode),
      (∀ e ∈ wdA, e.1 ≠ q) → (∃ nd, (p, nd) ∈ wdA) →
      lookupChild q (wdA.map fun e => if e.1 = p then (q, X) else e) = some X := by
  intro wdA
  induction wdA with
  | nil => intro p q X _ hm; simp at hm
  | cons e es ih =>
    intro p q X hnoq hm
    by_cases he : e.1 = p
    · simp only [List.map_cons, if_pos he]
      simp [lookupChild]
    · simp only [List.map_cons, if_neg he]
      have hq : e.1 ≠ q := hnoq e (by simp)
      rw [show lookupChild q (e :: es.map fun e => if e.1 = p then (q, X) else e) =
          lookupChild q (es.map fun e => if e.1 = p then (q, X) else e) by
        simp [lookupChild, hq]]
      obtain ⟨nd, hnd⟩ := hm
      rcases List.mem_cons.mp hnd with hnd | hnd
      · exact absurd (congrArg Prod.fst hnd).symm he
      · exact ih p q X (fun x hx => hnoq x (List.mem_cons_of_mem _ hx)) ⟨nd, hnd⟩

theorem lookupEntry_append_of_some {k x : List Char}
    {d : List (List Char × List Char)} (rest : List (List Char × List Char))
    (h : lookupEntry k d = some x) :
    lookupEntry k (d ++ rest) = some x := by
  induction d with
  | nil => simp [lookupEntry] at h
  | cons e es ih =>
    simp only [lookupEntry] at h ⊢
    by_cases he : e.1 = k
    · rwa [if_pos he] at h ⊢
    · rw [if_neg he] at h ⊢
      exact ih h

theorem moveRetained_lookup_preserved :
    ∀ (r : List (List Char)) (src dst : List (List Char × List Char))
      (k x : List Char), lookupEntry k dst = some x →
      lookupEntry k (moveRetained r src dst).2 = some x := by
  intro r
  induction r with
  | nil => intro src dst k x h; exact h
  | cons pth rest ih =>
    intro src dst k x h
    simp only [moveRetained]
    cases hs : lookupEntry pth src with
    | none => exact ih src dst k x h
    | some content =>
      cases hd : lookupEntry pth dst with
      | some y => exact ih src dst k x h
      | none =>
        exact ih (eraseEntry pth src) (dst ++ [(pth, content)]) k x
          (lookupEntry_append_of_some _ h)

theorem sentinelDirVer_dir {d : List (List Char × List Char)} {sv : List Int}
    (h : sentinelDirVer (.dir d) = some sv) :
    ∃ content, lookupEntry sentinelName d = some content ∧
      decodeSentinel content = some sv := by
  have h2 : (match lookupEntry sentinelName d with
      | none => none
      | some content => decodeSentinel content) = some sv := h
  split at h2
  · exact absurd h2 (by simp)
  · rename_i content hl
    exact ⟨content, hl, h2⟩

theorem candVer_elim {n : List Char} {d : List (List Char × List Char)}
    {v : List Int} (h : candVer n (.dir d) = some v) :
    n ≠ [] ∧ from_string n [] = .ok v ∧
      ∃ sv, sentinelDirVer (.dir d) = some sv ∧ veq v sv = true := by
  have h2 : (if n = [] then none
      else match from_string n [] with
      | .error _ => none
      | .ok dv =>
        match sentinelDirVer (.dir d) with
        | none => none
        | some sv => if vne dv sv then none else some dv) = some v := h
  split at h2
  · exact absurd h2 (by simp)
  · rename_i hn
    split at h2
    · exact absurd h2 (by simp)
    · rename_i dv hfs
      split at h2
      · exact absurd h2 (by simp)
      · rename_i sv hsv
        split at h2
        · exact absurd h2 (by simp)
        · rename_i hvne
          injection h2 with h2
          subst h2
          refine ⟨hn, hfs, sv, hsv, ?_⟩
          exact veq_of_vne_false (by simpa using hvne)

theorem mem_candList {wd : WDir} {w : List Int} {q : List Char} :
    (w, q) ∈ candList wd ↔ ∃ nd, (q, nd) ∈ wd ∧ candVer q nd = some w := by
  constructor
  · intro h
    obtain ⟨e, hewd, hecand⟩ := List.mem_filterMap.mp h
    obtain ⟨cv, hcv, hpair⟩ := Option.map_eq_some'.mp hecand
    obtain ⟨n0, node⟩ := e
    injection hpair with h1 h2
    subst h1; subst h2
    exact ⟨node, hewd, hcv⟩
  · intro ⟨nd, hm, hc⟩
    exact List.mem_filterMap.mpr ⟨(q, nd), hm, by simp [hc]⟩

theorem scan_some_facts {wd : WDir} {r : List Int × List Char}
    (h : latestAvailableUpdate wd = some r) :
    r ∈ candList wd ∧ ∀ x ∈ candList wd, vlt r.1 x.1 = false := by
  rw [latestAvailableUpdate, scanLoop_eq_scanAcc] at h
  have hj : scanAcc (candList wd) none = some (some r) := by
    cases hs : scanAcc (candList wd) none with
    | none => rw [hs] at h; exact absurd h (by simp)
    | some a =>
      rw [hs] at h
      cases a with
      | none => exact absurd h (by simp [Option.join])
      | some b => simpa [Option.join] using h
  obtain ⟨h1, -, h3⟩ := scanAcc_max _ _ _ hj
  refine ⟨?_, h1⟩
  rcases h3 with h3 | h3
  · exact h3
  · exact absurd h3 (by simp)

/-- After a successful apply, the renamed state admits no further
promotion: the latest directory carries a sentinel equivalent to the
greatest candidate of the pre-state, and every remaining candidate is
at most that version. -/
theorem applyLatest_second_none (m : Manager) (wd : WDir)
    (v0 sv : List Int) (p : List Char) (X : FsNode) (wdA : WDir)
    (hmax : ∀ x ∈ candList wd, vlt v0 x.1 = false)
    (hveq : veq v0 sv = true)
    (hX : sentinelDirVer X = some sv)
    (hsub : ∀ e ∈ wdA, e ∈ wd)
    (hnoq : ∀ e ∈ wdA, e.1 ≠ m.latestDir)
    (hpmem : ∃ nd, (p, nd) ∈ wdA)
    (hpl : p ≠ m.latestDir) :
    applyLatest m (eraseChild p
        (wdA.map fun e => if e.1 = p then (m.latestDir, X) else e)) =
      (none, eraseChild p
        (wdA.map fun e => if e.1 = p then (m.latestDir, X) else e)) := by
  set renamed := wdA.map fun e => if e.1 = p then (m.latestDir, X) else e
    with hren
  have hnop : ∀ e ∈ renamed, e.1 ≠ p := by
    intro e he
    obtain ⟨e0, he0, heq⟩ := List.mem_map.mp he
    by_cases h0 : e0.1 = p
    · rw [if_pos h0] at heq
      rw [← heq]
      exact fun hq => hpl hq.symm
    · rw [if_neg h0] at heq
      rw [← heq]
      exact h0
  have herase : eraseChild p renamed = renamed := by
    unfold eraseChild
    apply List.filter_eq_self.mpr
    intro e he
    simpa using hnop e he
  rw [herase]
  have hlk2 : lookupChild m.latestDir renamed = some X :=
    lookupChild_rename_hit wdA p m.latestDir X hnoq hpmem
  cases hscan2 : latestAvailableUpdate renamed with
  | none =>
    simp only [applyLatest]
    rw [hscan2]
  | some r =>
    obtain ⟨w, q⟩ := r
    have hwfacts := scan_some_facts hscan2
    obtain ⟨nd, hndmem, hcand⟩ := mem_candList.mp hwfacts.1
    have hvltw : vlt sv w = false := by
      obtain ⟨e0, he0, heq⟩ := List.mem_map.mp hndmem
      by_cases h0 : e0.1 = p
      · rw [if_pos h0] at heq
        injection heq with hq hnd2
        subst hq
        rw [← hnd2] at hcand
        cases X with
        | file c => simp [candVer] at hcand
        | dir dX =>
          obtain ⟨-, -, sv2, hsv2, hveq2⟩ := candVer_elim hcand
          rw [hX] at hsv2
          injection hsv2 with hsv2
          subst hsv2
          exact ((veq_true_iff.mp (by rw [veq_symm]; exact hveq2)).1)
      · rw [if_neg h0] at heq
        have hinwd : (q, nd) ∈ wd := hsub _ (heq ▸ he0)
        have hmemc : (w, q) ∈ candList wd := mem_candList.mpr ⟨nd, hinwd, hcand⟩
        exact vlt_negtrans (veq_true_iff.mp hveq).2 (hmax _ hmemc)
    simp only [applyLatest]
    rw [hscan2, hlk2]
    rw [show (some X).bind sentinelDirVer = some sv from hX]
    simp [hvltw]

/-- Claim C5: `apply_latest` is idempotent when there is no newer
update — for every working-directory state (with distinct child names,
as on a real filesystem), after a call that returns a version and
promotes the update directory, an immediately following second call
returns absent and leaves the state unchanged. -/
theorem c5_apply_latest_idempotent (m : Manager) (wd : WDir) (v : List Int)
    (wd2 : WDir) (hnd : (wd.map Prod.fst).Nodup)
    (h : applyLatest m wd = (some v, wd2)) :
    applyLatest m wd2 = (none, wd2) := by
  cases hscan : latestAvailableUpdate wd with
  | none =>
    simp only [applyLatest] at h
    rw [hscan] at h
    exact absurd h (by simp)
  | some r =>
    obtain ⟨v0, p⟩ := r
    obtain ⟨hmem2, hmax⟩ := scan_some_facts hscan
    obtain ⟨node, hewd, hcv⟩ := mem_candList.mp hmem2
    obtain ⟨pd, rfl⟩ : ∃ pd, node = .dir pd := by
      cases node with
      | file c => simp [candVer] at hcv
      | dir d => exact ⟨d, rfl⟩
    obtain ⟨hpne, hfs, sv, hsv, hveq⟩ := candVer_elim hcv
    have hlk : lookupChild p wd = some (.dir pd) :=
      lookupChild_of_mem_nodup hnd hewd
    simp only [applyLatest] at h
    rw [hscan] at h
    dsimp only at h
    rw [hlk] at h
    simp only [Option.getD_some] at h
    split at h
    · rename_i hcond
      injection h with hv hwd2
      have hpl : p ≠ m.latestDir := by
        intro hpeq
        rw [← hpeq, hlk] at hcond
        rw [show (some (FsNode.dir pd)).bind sentinelDirVer = some sv
          from hsv] at hcond
        have hf : vlt sv v0 = false := (veq_true_iff.mp hveq).2
        simp [hf] at hcond
      subst hwd2
      cases hle : lookupChild m.latestDir wd with
      | none =>
        dsimp only
        exact applyLatest_second_none m wd v0 sv p (.dir pd) wd hmax hveq hsv
          (fun e he => he) (lookupChild_none_forall hle) ⟨.dir pd, hewd⟩ hpl
      | some latNode =>
        cases latNode with
        | file c =>
          dsimp only
          exact applyLatest_second_none m wd v0 sv p (.dir pd)
            (eraseChild m.latestDir wd) hmax hveq hsv
            (fun e he => (List.mem_filter.mp he).1)
            (fun e he => by simpa using (List.mem_filter.mp he).2)
            ⟨.dir pd, List.mem_filter.mpr ⟨hewd, by simpa using hpl⟩⟩ hpl
        | dir latD =>
          dsimp only
          have hXsv : sentinelDirVer
              (.dir (moveRetained m.retain latD pd).2) = some sv := by
            obtain ⟨content, hlkc, hdec⟩ := sentinelDirVer_dir hsv
            have hpres := moveRetained_lookup_preserved m.retain latD pd
              sentinelName content hlkc
            show (match lookupEntry sentinelName
                (moveRetained m.retain latD pd).2 with
              | none => none
              | some c => decodeSentinel c) = some sv
            rw [hpres]
            exact hdec
          exact applyLatest_second_none m wd v0 sv p
            (.dir (moveRetained m.retain latD pd).2)
            (eraseChild m.latestDir wd) hmax hveq hXsv
            (fun e he => (List.mem_filter.mp he).1)
            (fun e he => by simpa using (List.mem_filter.mp he).2)
            ⟨.dir pd, List.mem_filter.mpr ⟨hewd, by simpa using hpl⟩⟩ hpl
    · exact absurd h (by simp)

theorem c5_witness :
    (exWd.map Prod.fst).Nodup ∧
      applyLatest exManager exWd =
        (some [1, 1], [(("current").data, sentinelDir (("1.1").data))]) ∧
      applyLatest exManager [(("current").data, sentinelDir (("1.1").data))] =
        (none, [(("current").data, sentinelDir (("1.1").data))]) :=
  ⟨by decide, by decide,
    c5_apply_latest_idempotent exManager exWd [1, 1]
      [(("current").data, sentinelDir (("1.1").data))] (by decide) (by decide)⟩

/-! ## Decimal rendering round-trip (for claim C9) -/

theorem isDig_decDigit (n : Nat) : isDig (decDigit n) = true := by
  rcases n with _|_|_|_|_|_|_|_|_|m <;> rfl

theorem dval_decDigit (n : Nat) (h : n < 10) : dval (decDigit n) = (n : Int) := by
  interval_cases n <;> rfl

theorem natToDecAux_digits :
    ∀ (fuel n : Nat), ∀ c ∈ natToDecAux fuel n, isDig c = true := by
  intro fuel
  induction fuel with
  | zero => intro n c hc; simp [natToDecAux] at hc
  | succ m ih =>
    intro n c hc
    simp only [natToDecAux] at hc
    by_cases h10 : n < 10
    · rw [if_pos h10] at hc
      simp only [List.mem_singleton] at hc
      rw [hc]; exact isDig_decDigit n
    · rw [if_neg h10] at hc
      rcases List.mem_append.mp hc with hm | hm
      · exact ih _ c hm
      · simp only [List.mem_singleton] at hm
        rw [hm]; exact isDig_decDigit _

theorem natToDecAux_val :
    ∀ (fuel n : Nat), n < fuel →
      (natToDecAux fuel n).foldl (fun (a : Int) c => a * 10 + dval c) 0 =
        (n : Int) := by
  intro fuel
  induction fuel with
  | zero => intro n h; omega
  | succ m ih =>
    intro n h
    simp only [natToDecAux]
    by_cases h10 : n < 10
    · rw [if_pos h10]
      simp only [List.foldl_cons, List.foldl_nil]
      rw [dval_decDigit n h10]
      omega
    · rw [if_neg h10]
      rw [List.foldl_append]
      rw [ih (n / 10) (by omega)]
      simp only [List.foldl_cons, List.foldl_nil]
      rw [dval_decDigit (n % 10) (by omega)]
      push_cast
      omega

theorem natToDec_val (n : Nat) :
    (natToDec n).foldl (fun (a : Int) c => a * 10 + dval c) 0 = (n : Int) :=
  natToDecAux_val (n + 1) n (by omega)

theorem parseRun_digits :
    ∀ (ds : List Char), (∀ c ∈ ds, isDig c = true) →
      ∀ (rest : List Char) (a : Int),
        parseRun (ds ++ rest) a =
          parseRun rest (ds.foldl (fun n c => n * 10 + dval c) a) := by
  intro ds
  induction ds with
  | nil => intro _ rest a; rfl
  | cons c cs ih =>
    intro hd rest a
    have hc : isDig c = true := hd c (by simp)
    have hcdot : c ≠ '.' := by
      intro h2; rw [h2] at hc; exact absurd hc (by decide)
    simp only [List.cons_append, parseRun, List.foldl_cons]
    rw [if_neg hcdot, if_pos hc]
    exact ih (fun x hx => hd x (by simp [hx])) rest (a * 10 + dval c)

theorem vstring_chars :
    ∀ (v : List Int), (∀ x ∈ v, 0 ≤ x) →
      ∀ c ∈ vstring v, isDig c = true ∨ c = '.' := by
  intro v
  induction v with
  | nil => intro _ c hc; simp [vstring] at hc
  | cons x xs ih =>
    intro hnn c hc
    cases xs with
    | nil =>
      simp only [vstring] at hc
      rw [intToDec, if_neg (by have := hnn x (by simp); omega)] at hc
      exact Or.inl (natToDecAux_digits _ _ c hc)
    | cons y ys =>
      simp only [vstring] at hc
      rcases List.mem_append.mp hc with hm | hm
      · rw [intToDec, if_neg (by have := hnn x (by simp); omega)] at hm
        exact Or.inl (natToDecAux_digits _ _ c hm)
      · rcases List.mem_cons.mp hm with hm | hm
        · exact Or.inr hm
        · exact ih (fun z hz => hnn z (by simp [hz])) c hm

theorem from_string_vstring :
    ∀ (v : List Int), v ≠ [] → (∀ x ∈ v, 0 ≤ x) →
      parseRun (vstring v) 0 = .ok v := by
  intro v
  induction v with
  | nil => intro h _; exact absurd rfl h
  | cons x xs ih =>
    intro _ hnn
    have hx : (0 : Int) ≤ x := hnn x (by simp)
    cases xs with
    | nil =>
      simp only [vstring]
      rw [intToDec, if_neg (by omega)]
      have hdig := parseRun_digits (natToDec x.natAbs)
        (fun c hc => natToDecAux_digits _ _ c hc) [] 0
      rw [List.append_nil] at hdig
      rw [hdig]
      show Except.ok [(natToDec x.natAbs).foldl
        (fun (a : Int) c => a * 10 + dval c) 0] = Except.ok [x]
      rw [natToDec_val]
      rw [Int.natAbs_of_nonneg hx]
    | cons y ys =>
      simp only [vstring]
      rw [intToDec, if_neg (by omega)]
      rw [parseRun_digits (natToDec x.natAbs)
        (fun c hc => natToDecAux_digits _ _ c hc) ('.' :: vstring (y :: ys)) 0]
      rw [show parseRun ('.' :: vstring (y :: ys))
          ((natToDec x.natAbs).foldl (fun (a : Int) c => a * 10 + dval c) 0) =
        (parseRun (vstring (y :: ys)) 0).map
          (fun ns => (natToDec x.natAbs).foldl
            (fun (a : Int) c => a * 10 + dval c) 0 :: ns) from rfl]
      rw [ih (by simp) (fun z hz => hnn z (by simp [hz]))]
      rw [natToDec_val]
      rw [Int.natAbs_of_nonneg hx]
      rfl

theorem from_string_vstring_cr :
    ∀ (v : List Int), v ≠ [] → (∀ x ∈ v, 0 ≤ x) →
      parseRun (vstring v ++ [Char.ofNat 13]) 0 = .error () := by
  intro v
  induction v with
  | nil => intro h _; exact absurd rfl h
  | cons x xs ih =>
    intro _ hnn
    have hx : (0 : Int) ≤ x := hnn x (by simp)
    cases xs with
    | nil =>
      simp only [vstring]
      rw [intToDec, if_neg (by omega)]
      rw [parseRun_digits (natToDec x.natAbs)
        (fun c hc => natToDecAux_digits _ _ c hc) [Char.ofNat 13] 0]
      rfl
    | cons y ys =>
      simp only [vstring]
      rw [intToDec, if_neg (by omega)]
      rw [List.append_assoc, List.cons_append]
      rw [parseRun_digits (natToDec x.natAbs)
        (fun c hc => natToDecAux_digits _ _ c hc)
        ('.' :: (vstring (y :: ys) ++ [Char.ofNat 13])) 0]
      rw [show parseRun ('.' :: (vstring (y :: ys) ++ [Char.ofNat 13]))
          ((natToDec x.natAbs).foldl (fun (a : Int) c => a * 10 + dval c) 0) =
        (parseRun (vstring (y :: ys) ++ [Char.ofNat 13]) 0).map
          (fun ns => (natToDec x.natAbs).foldl
            (fun (a : Int) c => a * 10 + dval c) 0 :: ns) from rfl]
      rw [ih (by simp) (fun z hz => hnn z (by simp [hz]))]
      rfl

theorem getLines_single :
    ∀ (xs : List Char), '\n' ∉ xs → getLines (xs ++ ['\n']) = [xs] := by
  intro xs
  induction xs with
  | nil => intro _; rfl
  | cons c cs ih =>
    intro hn
    have hc : c ≠ '\n' := fun h => hn (by simp [h])
    have hrec := ih (fun h => hn (List.mem_cons_of_mem _ h))
    rw [List.cons_append]
    simp only [getLines, if_neg hc, hrec]

theorem decodeLoop_version_line (t : List Char) (acc : Option (List Int)) :
    decodeLoop [("version=").data ++ t] acc =
      match from_string t [] with
      | .error _ => .error ()
      | .ok v => .ok (some v) := rfl

theorem from_string_no_pre (s : List Char) : from_string s [] = parseRun s 0 := by
  have hc : containsSubstr s [] = true := by cases s <;> rfl
  simp [from_string, hc]

theorem decodeSentinel_version (t : List Char)
    (hnl : '\n' ∉ ("version=").data ++ t) :
    decodeSentinel ((("version=").data ++ t) ++ ['\n']) =
      match parseRun t 0 with
      | .error _ => none
      | .ok v => some v := by
  unfold decodeSentinel
  rw [getLines_single _ hnl, decodeLoop_version_line, from_string_no_pre]
  cases parseRun t 0 <;> rfl

/-- Claim C9 (amended): `sentinel::read` accepts an LF-terminated (or
unterminated) sentinel file: for every version with non-negative
components, "version=" ++ v.string() ++ LF decodes to exactly v; but a
CRLF terminator makes reading fail (return false), because the carriage
return remains part of the value and version parsing rejects it. -/
theorem c9_amended (v : List Int) (hne : v ≠ []) (hnn : ∀ x ∈ v, 0 ≤ x) :
    decodeSentinel (("version=").data ++ vstring v ++ ("\n").data) = some v ∧
      decodeSentinel (("version=").data ++ vstring v ++ ("\r\n").data) =
        none := by
  have hchars := vstring_chars v hnn
  have hnotnl : '\n' ∉ vstring v := by
    intro hmem
    rcases hchars _ hmem with hd | hd
    · exact absurd hd (by decide)
    · exact absurd hd (by decide)
  constructor
  · have hnl : '\n' ∉ ("version=").data ++ vstring v := by
      intro hmem
      rcases List.mem_append.mp hmem with hm | hm
      · revert hm; decide
      · exact hnotnl hm
    rw [show ("version=").data ++ vstring v ++ ("\n").data =
        ((("version=").data ++ vstring v) ++ ['\n']) by simp]
    rw [decodeSentinel_version _ hnl]
    rw [from_string_vstring v hne hnn]
  · have hnl2 : '\n' ∉ ("version=").data ++ (vstring v ++ [Char.ofNat 13]) := by
      intro hmem
      rcases List.mem_append.mp hmem with hm | hm
      · revert hm; decide
      · rcases List.mem_append.mp hm with hm | hm
        · exact hnotnl hm
        · revert hm; decide
    rw [show ("version=").data ++ vstring v ++ ("\r\n").data =
        ((("version=").data ++ (vstring v ++ [Char.ofNat 13])) ++ ['\n']) by
      simp [show ("\r\n").data = [Char.ofNat 13, '\n'] from rfl]]
    rw [decodeSentinel_version _ hnl2]
    rw [from_string_vstring_cr v hne hnn]

theorem c9_witness :
    decodeSentinel (("version=").data ++ vstring [1, 2, 3] ++ ("\n").data) =
        some [1, 2, 3] ∧
      decodeSentinel
          (("version=").data ++ vstring [1, 2, 3] ++ ("\r\n").data) =
        none :=
  c9_amended [1, 2, 3] (by decide) (by decide)

end Update